import Mathlib

/-!
Verification of the recursive traversal and aggregation engine of a
Windows file-system explorer (modules `analysis.py`, `navigation.py`,
`search.py`, `utils.py`).

The file system is modelled by the inductive type `FSTree`: a node is a
plain file with a byte size, a directory (readable or not) with a list of
named children, a symbolic link (or junction or reparse point) to a target
node, or a broken link whose metadata cannot be read.  A Python function
`f(path)` that walks the directory at `path` becomes a Lean function on
the `FSTree` standing at that path; full path strings are rebuilt by
joining with a slash, mirroring `os.path.join`.

Recursive traversals are embedded with an explicit fuel argument so that
every definition is structurally recursive and evaluates inside the
kernel.  Running out of fuel returns the same failure value that the
Python code produces when a `RecursionError` is swallowed by the blanket
`except Exception` handlers.  The exported entry points apply a fuel that
is proved sufficient (`treeDepth`), so the fuel is invisible in the
statements about finite trees.

Python `list.sort` is a stable sort; it is embedded as the stable
insertion sort `stableSort`, which agrees with every stable sort for a
total preorder.
-/

/-- Stable insertion of one element into a list: the new element is placed
before the first existing element that is not strictly below it, so equal
elements keep their original relative order. -/
def stableInsert (le : α → α → Bool) (x : α) : List α → List α
  | [] => [x]
  | y :: ys => if le y x && !(le x y) then y :: stableInsert le x ys else x :: y :: ys

/-- Stable sort (model of Python `list.sort` / `sorted`, which are stable). -/
def stableSort (le : α → α → Bool) : List α → List α
  | [] => []
  | x :: xs => stableInsert le x (stableSort le xs)

/-- ASCII lower-casing of one character, as Python `str.lower` acts on the
ASCII names used throughout. -/
def lowChar (c : Char) : Char :=
  if 'A' ≤ c ∧ c ≤ 'Z' then Char.ofNat (c.toNat + 32) else c

/-- Lower-cased character list of a name (model of `name.lower()`). -/
def lowName (s : String) : List Char := s.toList.map lowChar

/-- Lexicographic comparison of character lists, mirroring Python string
comparison by code point. -/
def lexLe : List Char → List Char → Bool
  | [], _ => true
  | _ :: _, [] => false
  | c :: cs, d :: ds => if c = d then lexLe cs ds else decide (c < d)

/-- File-system node: a file with its byte size, a directory that is
readable or permission-denied, a symbolic link (junction, reparse point)
with its target, or a broken link whose `stat` raises. -/
inductive FSTree where
  | file (size : Nat)
  | dir (readable : Bool) (children : List (String × FSTree))
  | link (target : FSTree)
  | broken

/-- Model of `Path(p).is_dir()`: follows symbolic links. -/
def isDirNode : FSTree → Bool
  | .dir _ _ => true
  | .link t => isDirNode t
  | _ => false

/-- Model of `os.path.islink(p)`. -/
def isLinkNode : FSTree → Bool
  | .link _ => true
  | _ => false

/-- Model of `Path(p).stat()` raising: true for a broken link (directly or
through a chain of links).  `navigation.list_directory` silently skips such
entries. -/
def statFails : FSTree → Bool
  | .broken => true
  | .link t => statFails t
  | _ => false

/-- Model of `item_path.stat().st_size`, which follows links. -/
def sizeNode : FSTree → Nat
  | .file s => s
  | .link t => sizeNode t
  | _ => 0

/-- The `size` field that `navigation.list_directory` stores: zero for a
directory, the `stat` size otherwise. -/
def entrySize (t : FSTree) : Nat :=
  if isDirNode t then 0 else sizeNode t

/-- Sort order of `navigation.list_directory`:
`items_info.sort(key=lambda x: (x[type] != dir, x[name].lower()))` —
directories first, then files, each group alphabetically by lower-cased
name; the sort is stable. -/
def entryLe (a b : String × FSTree) : Bool :=
  if (!isDirNode a.2) = (!isDirNode b.2) then lexLe (lowName a.1) (lowName b.1)
  else (!isDirNode a.2) = false

/-- Model of `navigation.list_directory`.  `utils.safe_windows_listdir`
absorbs every OS error (missing path, permission denied, not a directory)
into an empty list, so the function returns success in every modelled
case; entries whose metadata cannot be read are skipped; the survivors are
sorted directories-first.  Listing a link lists its target.  The returned
entries keep the child subtree so that callers can recurse; the Python
item dictionary fields are recovered by `isDirNode`, `entrySize` and the
entry name. -/
def list_directory : FSTree → Bool × List (String × FSTree)
  | .dir true cs => (true, stableSort entryLe (cs.filter (fun e => !statFails e.2)))
  | .link t => list_directory t
  | _ => (true, [])

mutual

/-- Height of a tree: an upper bound on the recursion depth that any of
the traversals can reach, used as sufficient fuel. -/
def treeDepth : FSTree → Nat
  | .file _ => 1
  | .broken => 1
  | .link t => treeDepth t + 1
  | .dir _ cs => treeDepthList cs + 1

/-- Maximum height of the subtrees in a child list. -/
def treeDepthList : List (String × FSTree) → Nat
  | [] => 0
  | e :: rest => max (treeDepth e.2) (treeDepthList rest)

end

/-- Model of `os.path.join(parent, name)`; the platform separator is
rendered as a slash. -/
def joinPath (pre nm : String) : String := pre ++ "/" ++ nm

/-- Suffix of a character list beginning at its last dot, when a dot is
present. -/
def lastDotSuffix : List Char → Option (List Char)
  | [] => none
  | c :: rest =>
    (match lastDotSuffix rest with
     | some t => some t
     | none => if c = '.' then some (c :: rest) else none)

/-- Model of the extension half of `os.path.splitext(name)` for a bare
file name (no separators), following CPython `genericpath._splitext`:
the extension starts at the last dot, except that the run of leading dots
is skipped first — so a dot inside that run never starts an extension and
names such as `.bashrc` or `...txt` have no extension. -/
def extOf (name : String) : String :=
  match lastDotSuffix (name.toList.dropWhile (fun c => c = '.')) with
  | some t => String.mk t
  | none => ""

/-- ASCII lower-casing of a whole string (Python `str.lower` on the ASCII
names in scope). -/
def strLower (s : String) : String := String.mk (s.toList.map lowChar)

/-- Histogram key of a file name in `analysis.analyze_windows_file_types`
(also the `type` field of `search.find_large_files_windows` records):
the lower-cased extension with its dot, or the sentinel when absent. -/
def histKey (name : String) : String :=
  let ext := extOf name
  if ext = "" then "(no extension)" else strLower ext

/-- One pass of the `count_files` loop body over the listed entries;
`rec` is the recursive call for subdirectories.  A failed recursive call
contributes nothing and the loop continues with the next sibling. -/
def goCount (rec : FSTree → Bool × Nat) : List (String × FSTree) → Nat
  | [] => 0
  | (_, c) :: rest =>
    (if isDirNode c then (let r := rec c; if r.1 then r.2 else 0) else 1) + goCount rec rest

/-- Fuelled model of `analysis.count_files`.  Exhausted fuel returns
`(false, 0)`, exactly what the Python blanket `except Exception` handler
turns a `RecursionError` into.  The guard mirrors
`if not success or not items: return False, 0`, which also makes an empty
listing a failure. -/
def countF : Nat → FSTree → Bool × Nat
  | 0, _ => (false, 0)
  | fuel + 1, t =>
    let L := list_directory t
    if !L.1 || L.2.isEmpty then (false, 0)
    else (true, goCount (fun c => countF fuel c) L.2)

/-- Model of `analysis.count_files` on a finite tree; `treeDepth` fuel is
proved sufficient below. -/
def count_files (t : FSTree) : Bool × Nat := countF (treeDepth t) t

/-- One pass of the `count_bytes` loop body: symbolic links among the
directory-typed entries are skipped before recursing; file sizes are
accumulated. -/
def goBytes (rec : FSTree → Bool × Nat) : List (String × FSTree) → Nat
  | [] => 0
  | (_, c) :: rest =>
    (if isDirNode c then
      (if isLinkNode c then 0 else (let r := rec c; if r.1 then r.2 else 0))
     else entrySize c) + goBytes rec rest

/-- Fuelled model of `analysis.count_bytes`. -/
def bytesF : Nat → FSTree → Bool × Nat
  | 0, _ => (false, 0)
  | fuel + 1, t =>
    let L := list_directory t
    if !L.1 || L.2.isEmpty then (false, 0)
    else (true, goBytes (fun c => bytesF fuel c) L.2)

/-- Model of `analysis.count_bytes` on a finite tree. -/
def count_bytes (t : FSTree) : Bool × Nat := bytesF (treeDepth t) t

/-- Python `defaultdict` update `stats[ext][count] += dc; stats[ext][size] += ds`
on an insertion-ordered association list: an existing key is updated in
place, a new key is appended. -/
def updateStats : List (String × Nat × Nat) → String → Nat → Nat → List (String × Nat × Nat)
  | [], ext, dc, ds => [(ext, dc, ds)]
  | (e, c, s) :: rest, ext, dc, ds =>
    if e = ext then (e, c + dc, s + ds) :: rest
    else (e, c, s) :: updateStats rest ext dc ds

/-- Merging the statistics of a subdirectory into the accumulator,
iterating the sub-dictionary in its own insertion order. -/
def mergeStats (acc : List (String × Nat × Nat)) (sub : List (String × Nat × Nat)) :
    List (String × Nat × Nat) :=
  sub.foldl (fun a e => updateStats a e.1 e.2.1 e.2.2) acc

/-- One pass of the `analyze_windows_file_types` loop body: links are
skipped, readable subdirectory statistics are merged, files are keyed by
their normalized extension. -/
def goTypes (rec : FSTree → Bool × List (String × Nat × Nat)) :
    List (String × FSTree) → List (String × Nat × Nat) → List (String × Nat × Nat)
  | [], acc => acc
  | (nm, c) :: rest, acc =>
    if isDirNode c then
      (if isLinkNode c then goTypes rec rest acc
       else
        (let r := rec c
         if r.1 then goTypes rec rest (mergeStats acc r.2) else goTypes rec rest acc))
    else goTypes rec rest (updateStats acc (histKey nm) 1 (entrySize c))

/-- Fuelled model of `analysis.analyze_windows_file_types`; the histogram
is an insertion-ordered association list keyed by normalized extension,
with the count and total size (the redundant `ext` field of the Python
dictionary value repeats the key and is dropped). -/
def typesF : Nat → FSTree → Bool × List (String × Nat × Nat)
  | 0, _ => (false, [])
  | fuel + 1, t =>
    let L := list_directory t
    if !L.1 || L.2.isEmpty then (false, [])
    else (true, goTypes (fun c => typesF fuel c) L.2 [])

/-- Model of `analysis.analyze_windows_file_types` on a finite tree. -/
def analyze_windows_file_types (t : FSTree) : Bool × List (String × Nat × Nat) :=
  typesF (treeDepth t) t

/-- One pass of the `collect_files` helper of
`analysis._get_largest_files`: skips links, recurses into
subdirectories, appends `(full_path, size)` for every file, in listing
order. -/
def goCollect (rec : String → FSTree → List (String × Nat)) (pre : String) :
    List (String × FSTree) → List (String × Nat)
  | [] => []
  | (nm, c) :: rest =>
    if isDirNode c then
      (if isLinkNode c then goCollect rec pre rest
       else rec (joinPath pre nm) c ++ goCollect rec pre rest)
    else (joinPath pre nm, entrySize c) :: goCollect rec pre rest

/-- Fuelled model of the recursive `collect_files` helper. -/
def collectF : Nat → String → FSTree → List (String × Nat)
  | 0, _, _ => []
  | fuel + 1, pre, t =>
    let L := list_directory t
    if !L.1 || L.2.isEmpty then []
    else goCollect (fun p c => collectF fuel p c) pre L.2

/-- All files reachable by the collector of `_get_largest_files`, with
their full paths and sizes, in traversal order. -/
def collect_files (path : String) (t : FSTree) : List (String × Nat) :=
  collectF (treeDepth t) path t

/-- Comparison used by `files_with_size.sort(key=lambda x: x[1], reverse=True)`:
descending by exact byte size; the sort is stable. -/
def sizeGe (a b : String × Nat) : Bool := decide (b.2 ≤ a.2)

/-- Model of `analysis._get_largest_files(path, n)`: collect every
reachable file, sort by size descending (stable) and keep the first `n`. -/
def _get_largest_files (path : String) (t : FSTree) (n : Nat) : List (String × Nat) :=
  (stableSort sizeGe (collect_files path t)).take n

/-- One element of the regular expression that `fnmatch.translate`
compiles a pattern into: `.*` for a star, `.` for a question mark, an
escaped literal character, or a character class `[...]` (negated by a
leading `!`, which translate turns into `^`). -/
inductive GlobTok where
  | star
  | anyChar
  | litChar (c : Char)
  | classTok (neg : Bool) (body : List Char)

/-- Normal-mode translation of a single character, used when a `[` with
no closing `]` makes class parsing impossible for the rest of the
pattern: stars and question marks keep their meaning, everything else is
literal. -/
def reLit (c : Char) : GlobTok :=
  if c = '*' then GlobTok.star
  else if c = '?' then GlobTok.anyChar
  else GlobTok.litChar c

/-- Model of `fnmatch.translate`, compiling the pattern into tokens in
one left-to-right scan.  The first argument is the scanner state:
`none` is normal mode; `some (neg, acc)` means a `[` was opened, `neg`
records a leading `!`, and `acc` holds the class body consumed so far in
reverse.  On a `[`, the scan of translate is followed: an optional
leading `!` negates and a `]` directly after it belongs to the body,
which then runs to the next `]`.  When the pattern ends with the class
still open, translate emits an escaped literal `[` and resumes right
after it; since no `]` remains at that point, every consumed character
translates in normal mode, which the end-of-input branch applies through
`reLit`. -/
def gtAux : Option (Bool × List Char) → List Char → List GlobTok
  | none, [] => []
  | none, c :: ps =>
    if c = '*' then GlobTok.star :: gtAux none ps
    else if c = '?' then GlobTok.anyChar :: gtAux none ps
    else if c = '[' then
      (match ps with
       | '!' :: ']' :: q => gtAux (some (true, [']'])) q
       | '!' :: q => gtAux (some (true, [])) q
       | ']' :: q => gtAux (some (false, [']'])) q
       | q => gtAux (some (false, [])) q)
    else GlobTok.litChar c :: gtAux none ps
  | some (neg, acc), [] =>
    GlobTok.litChar '[' :: (if neg then '!' :: acc.reverse else acc.reverse).map reLit
  | some (neg, acc), ']' :: rest => GlobTok.classTok neg acc.reverse :: gtAux none rest
  | some (neg, acc), c :: rest => gtAux (some (neg, c :: acc)) rest

/-- Compilation of a whole pattern, starting in normal mode. -/
def globTranslate (p : List Char) : List GlobTok := gtAux none p

/-- Membership of one character in a class body, with the regular
expression reading of the body: `x-y` between two characters is a range,
a hyphen first or last is literal, anything else is a singleton.  A
reversed range (`x` above `y`) denotes the empty set, as the library
drops such invalid ranges when it builds the class. -/
def memClass : List Char → Char → Bool
  | x :: '-' :: y :: rest, d => (x ≤ d && d ≤ y) || memClass rest d
  | x :: rest, d => (x = d) || memClass rest d
  | [], _ => false

/-- ASCII upper-casing of one character. -/
def upChar (c : Char) : Char :=
  if 'a' ≤ c ∧ c ≤ 'z' then Char.ofNat (c.toNat - 32) else c

/-- Literal comparison under an optional `re.IGNORECASE`: the flag makes
the comparison case-insensitive (ASCII folding). -/
def litEq (ci : Bool) (c d : Char) : Bool :=
  if ci then lowChar c = lowChar d else c = d

/-- Class test under an optional `re.IGNORECASE`: the matcher accepts a
character when the character itself or one of its case variants lies in
the class, which is how the regular expression engine evaluates a class
under the flag. -/
def classMatches (ci : Bool) (body : List Char) (d : Char) : Bool :=
  if ci then memClass body d || memClass body (lowChar d) || memClass body (upChar d)
  else memClass body d

/-- Running the compiled tokens against a name, anchored at both ends as
the translated regex is (`re.match` plus a final anchor): the empty
token list accepts only the exhausted name, a star tries every suffix,
a question mark consumes exactly one character (any character, as the
regex carries the DOTALL flag). -/
def globMatchToks (ci : Bool) : List GlobTok → List Char → Bool
  | [], s => s.isEmpty
  | GlobTok.star :: ts, s => s.tails.any (fun s2 => globMatchToks ci ts s2)
  | GlobTok.anyChar :: ts, s =>
    (match s with
     | [] => false
     | _ :: s2 => globMatchToks ci ts s2)
  | GlobTok.litChar c :: ts, s =>
    (match s with
     | [] => false
     | d :: s2 => litEq ci c d && globMatchToks ci ts s2)
  | GlobTok.classTok neg body :: ts, s =>
    (match s with
     | [] => false
     | d :: s2 =>
       (if neg then !classMatches ci body d else classMatches ci body d) &&
         globMatchToks ci ts s2)

/-- Case-sensitive anchored glob matching: translate the pattern and run
the tokens against the name. -/
def globCs (p s : List Char) : Bool := globMatchToks false (globTranslate p) s

/-- Name test of `search.find_files_windows`: the pattern is translated
once and compiled with `re.IGNORECASE` unless the caller opts into
case-sensitive matching. -/
def matchesPattern (pattern : String) (case_sensitive : Bool) (name : String) : Bool :=
  if case_sensitive then globMatchToks false (globTranslate pattern.toList) name.toList
  else globMatchToks true (globTranslate pattern.toList) name.toList

/-- One pass of the `search_recursive` loop of `find_files_windows`:
skips links, recurses into subdirectories, collects full paths of files
whose name matches. -/
def goFind (keep : String → Bool) (rec : String → FSTree → List String) (pre : String) :
    List (String × FSTree) → List String
  | [] => []
  | (nm, c) :: rest =>
    if isDirNode c then
      (if isLinkNode c then goFind keep rec pre rest
       else rec (joinPath pre nm) c ++ goFind keep rec pre rest)
    else
      (if keep nm then joinPath pre nm :: goFind keep rec pre rest
       else goFind keep rec pre rest)

/-- Fuelled recursive search shared by the three filter functions; `keep`
is the per-name test of the concrete filter. -/
def searchF (keep : String → Bool) : Nat → String → FSTree → List String
  | 0, _, _ => []
  | fuel + 1, pre, t =>
    let L := list_directory t
    if !L.1 || L.2.isEmpty then []
    else goFind keep (fun p c => searchF keep fuel p c) pre L.2

/-- Model of `search.find_files_windows(pattern, path, case_sensitive)`. -/
def find_files_windows (pattern : String) (path : String) (t : FSTree)
    (case_sensitive : Bool) : List String :=
  searchF (matchesPattern pattern case_sensitive) (treeDepth t) path t

/-- Whitespace test of Python `str.strip` (ASCII whitespace). -/
def isSpaceChar (c : Char) : Bool :=
  c = ' ' || c = '\t' || c = '\n' || c = '\r' || c = Char.ofNat 11 || c = Char.ofNat 12

/-- Model of Python `str.strip()`: drop whitespace from both ends. -/
def stripStr (s : String) : String :=
  String.mk (((s.toList.dropWhile isSpaceChar).reverse.dropWhile isSpaceChar).reverse)

/-- Normalization that `search.find_by_windows_extension` applies to each
requested extension: strip, lower-case, prepend a dot when missing. -/
def normInputExt (e : String) : String :=
  let e2 := strLower (stripStr e)
  match e2.toList with
  | '.' :: _ => e2
  | _ => "." ++ e2

/-- Name test of `find_by_windows_extension`: the lower-cased extension
of the name is a member of the normalized extension list. -/
def extMatches (normalized : List String) (name : String) : Bool :=
  normalized.contains (strLower (extOf name))

/-- Model of `search.find_by_windows_extension(extensions, path)`. -/
def find_by_windows_extension (extensions : List String) (path : String) (t : FSTree) :
    List String :=
  searchF (extMatches (extensions.map normInputExt)) (treeDepth t) path t

/-- Record built by `search.find_large_files_windows` for one matching
file; `size_mb` is held in hundredths of a megabyte (see
`size_mb_centi`), and `ftype` is the dictionary field named `type`. -/
structure LargeFileInfo where
  path : String
  size_mb : Nat
  size_bytes : Nat
  ftype : String
  name : String
deriving DecidableEq, Repr

/-- Model of `round(size / (1024 * 1024), 2)` in hundredths of a
megabyte: the nearest integer to `100 * size / 2^20`, rounding half up.
For sizes that do not fall on an exact half-hundredth boundary this
agrees with the Python float computation. -/
def size_mb_centi (size : Nat) : Nat := (200 * size + 1048576) / 2097152

/-- One pass of the `search_recursive` loop of
`find_large_files_windows`: files at least as large as the byte threshold
are turned into records, in traversal order. -/
def goLarge (minBytes : Nat) (rec : String → FSTree → List LargeFileInfo) (pre : String) :
    List (String × FSTree) → List LargeFileInfo
  | [] => []
  | (nm, c) :: rest =>
    if isDirNode c then
      (if isLinkNode c then goLarge minBytes rec pre rest
       else rec (joinPath pre nm) c ++ goLarge minBytes rec pre rest)
    else
      (if minBytes ≤ entrySize c then
        { path := joinPath pre nm
          size_mb := size_mb_centi (entrySize c)
          size_bytes := entrySize c
          ftype := histKey nm
          name := nm } :: goLarge minBytes rec pre rest
       else goLarge minBytes rec pre rest)

/-- Fuelled recursive collector of `find_large_files_windows`. -/
def largeF (minBytes : Nat) : Nat → String → FSTree → List LargeFileInfo
  | 0, _, _ => []
  | fuel + 1, pre, t =>
    let L := list_directory t
    if !L.1 || L.2.isEmpty then []
    else goLarge minBytes (fun p c => largeF minBytes fuel p c) pre L.2

/-- Comparison of `large_files.sort(key=lambda x: x[size_mb], reverse=True)`:
descending by the rounded megabyte figure, not by the exact byte size. -/
def largeGe (a b : LargeFileInfo) : Bool := decide (b.size_mb ≤ a.size_mb)

/-- Model of `search.find_large_files_windows(min_size_mb, path)` for a
whole-megabyte threshold: `min_size_bytes = min_size_mb * 1024 * 1024`,
collect matching files, then sort by rounded megabytes descending. -/
def find_large_files_windows (min_size_mb : Nat) (path : String) (t : FSTree) :
    List LargeFileInfo :=
  stableSort largeGe (largeF (min_size_mb * 1048576) (treeDepth t) path t)

/-- Value that a swallowed recursive call contributes to its parent: the
accumulated number on success, nothing on failure. -/
def cv (r : Bool × Nat) : Nat := if r.1 then r.2 else 0

/-- Contribution of one raw child to the file count of its parent, at the
given fuel for recursive calls: skipped entries contribute nothing,
directory-typed entries their swallowed recursive count, files one. -/
def countContrib (fuel : Nat) (e : String × FSTree) : Nat :=
  if statFails e.2 then 0
  else if isDirNode e.2 then cv (countF fuel e.2) else 1

/-- Contribution of one raw child to the byte total of its parent. -/
def bytesContrib (fuel : Nat) (e : String × FSTree) : Nat :=
  if statFails e.2 then 0
  else if isDirNode e.2 then (if isLinkNode e.2 then 0 else cv (bytesF fuel e.2))
  else entrySize e.2

/-- Replacement of the child at one index of a raw children list by a
transformed version; other entries and the order are untouched. -/
def updateChild : List (String × FSTree) → Nat → (FSTree → FSTree) → List (String × FSTree)
  | [], _, _ => []
  | e :: rest, 0, f => (e.1, f e.2) :: rest
  | e :: rest, i + 1, f => e :: updateChild rest i f

/-- A position given by child indices into the raw children lists; true
when it denotes a directory node of the tree (every traversed node,
including the final one, is a directory). -/
def pathToDir : FSTree → List Nat → Bool
  | .dir _ _, [] => true
  | .dir _ cs, i :: rest =>
    (match cs[i]? with
     | some e => pathToDir e.2 rest
     | none => false)
  | _, _ => false

/-- Makes the directory at the given position unreadable (permission
denied), leaving everything else unchanged. -/
def markAt : FSTree → List Nat → FSTree
  | .dir _ cs, [] => .dir false cs
  | .dir r cs, i :: rest => .dir r (updateChild cs i (fun c => markAt c rest))
  | t, _ => t

/-- Removes the subdirectory at the given position from its parent. -/
def removeAt : FSTree → List Nat → FSTree
  | .dir r cs, [i] => .dir r (cs.eraseIdx i)
  | .dir r cs, i :: rest => .dir r (updateChild cs i (fun c => removeAt c rest))
  | t, _ => t

mutual

/-- True when the tree contains no symbolic link. -/
def linkFree : FSTree → Bool
  | .file _ => true
  | .broken => true
  | .link _ => false
  | .dir _ cs => linkFreeList cs

/-- True when no subtree of the children contains a symbolic link. -/
def linkFreeList : List (String × FSTree) → Bool
  | [] => true
  | e :: rest => linkFree e.2 && linkFreeList rest

end

/-- Children of the witness tree for C1: a readable subdirectory holding
one file, next to a plain file. -/
def c1Children : List (String × FSTree) :=
  [("sub", FSTree.dir true [("f.txt", FSTree.file 1)]), ("g.txt", FSTree.file 2)]

/-- The concrete tree of the specification scenario:
root contains `a.txt` (100 bytes), `b.TXT` (50 bytes) and a subdirectory
`sub` holding `c.bin` (10 bytes). -/
def exTree : FSTree :=
  FSTree.dir true
    [("a.txt", FSTree.file 100), ("b.TXT", FSTree.file 50),
     ("sub", FSTree.dir true [("c.bin", FSTree.file 10)])]

mutual

/-- Every file of a tree with its full path and size, regardless of
readability or links — the reading of the claim in which even files
inside unreadable subdirectories count as files of the tree. -/
def allFiles (pre : String) : FSTree → List (String × Nat)
  | .file _ => []
  | .broken => []
  | .link _ => []
  | .dir _ cs => allFilesList pre cs

/-- Files contributed by a children list, in order. -/
def allFilesList (pre : String) : List (String × FSTree) → List (String × Nat)
  | [] => []
  | (nm, c) :: rest =>
    (match c with
     | .file s => [(joinPath pre nm, s)]
     | .dir rd cs2 => allFiles (joinPath pre nm) (FSTree.dir rd cs2)
     | _ => []) ++ allFilesList pre rest

end

/-- Ordering asserted by the claim for the largest-files list: size
descending with ties broken by full path ascending (lexicographic). -/
def specTieOrder (a b : String × Nat) : Prop :=
  b.2 < a.2 ∨ (a.2 = b.2 ∧ lexLe a.1.toList b.1.toList = true)

instance : DecidableRel specTieOrder := by
  intro a b
  unfold specTieOrder
  infer_instance

/-- Counterexample tree for C6: two equally sized files whose traversal
order differs from path-ascending order, plus an unreadable subdirectory
hiding a much larger file. -/
def c6Tree : FSTree :=
  FSTree.dir true
    [("B.txt", FSTree.file 10), ("a.txt", FSTree.file 10),
     ("locked", FSTree.dir false [("big.bin", FSTree.file 999)])]

/-- Children of the six-file witness tree for C6. -/
def c6Six : FSTree :=
  FSTree.dir true
    [("a.txt", FSTree.file 6), ("b.txt", FSTree.file 5), ("c.txt", FSTree.file 4),
     ("d.txt", FSTree.file 3), ("e.txt", FSTree.file 2), ("f.txt", FSTree.file 1)]

/-- Counterexample tree for C8: two files over one megabyte whose sizes
differ by fewer bytes than half a hundredth of a megabyte. -/
def c8Tree : FSTree :=
  FSTree.dir true [("a.bin", FSTree.file 1048576), ("b.bin", FSTree.file 1049000)]

/-- Path-indexed view of a file system, used where the tree embedding
cannot represent sharing: a symbolic link back to an ancestor makes the
set of reachable paths infinite.  `listdir` returns the child names
(empty on error), and the predicates answer the `is_dir`, `islink` and
`stat` queries for a path. -/
structure RawFS where
  listdir : List String → List String
  isDir : List String → Bool
  isLink : List String → Bool
  size : List String → Nat

/-- Listing sort order of `navigation.list_directory` for path-model
items `(name, is_dir, size)`. -/
def itemLe (a b : String × Bool × Nat) : Bool :=
  if (!a.2.1) = (!b.2.1) then lexLe (lowName a.1) (lowName b.1) else (!a.2.1) = false

/-- Path-model transcription of `navigation.list_directory`: item
records carry name, directory flag and size (zero for directories),
sorted directories first. -/
def list_directoryP (fs : RawFS) (p : List String) : Bool × List (String × Bool × Nat) :=
  (true, stableSort itemLe ((fs.listdir p).map (fun nm =>
    (nm, fs.isDir (p ++ [nm]), if fs.isDir (p ++ [nm]) then 0 else fs.size (p ++ [nm])))))

/-- Path-model loop body of `count_files`; `none` means the computation
does not finish within the available recursion depth. -/
def goCountP (rec : List String → Option (Bool × Nat)) (p : List String) :
    List (String × Bool × Nat) → Option Nat
  | [] => some 0
  | (nm, isdir, _) :: rest =>
    if isdir then
      (rec (p ++ [nm])).bind (fun r =>
        (goCountP rec p rest).map (fun n => (if r.1 then r.2 else 0) + n))
    else (goCountP rec p rest).map (fun n => 1 + n)

/-- Path-model transcription of `analysis.count_files`: it recurses into
every directory-typed entry, with no link check before the recursive
call (unlike every other traversal in the module). -/
def countFilesP (fs : RawFS) : Nat → List String → Option (Bool × Nat)
  | 0, _ => none
  | fuel + 1, p =>
    let L := list_directoryP fs p
    if !L.1 || L.2.isEmpty then some (false, 0)
    else (goCountP (fun q => countFilesP fs fuel q) p L.2).map (fun n => (true, n))

/-- Path-model loop body of `count_bytes`: a symbolic link among the
directory-typed entries is skipped before recursing. -/
def goBytesP (fs : RawFS) (rec : List String → Option (Bool × Nat)) (p : List String) :
    List (String × Bool × Nat) → Option Nat
  | [] => some 0
  | (nm, isdir, sz) :: rest =>
    if isdir then
      (if fs.isLink (p ++ [nm]) then goBytesP fs rec p rest
       else (rec (p ++ [nm])).bind (fun r =>
        (goBytesP fs rec p rest).map (fun n => (if r.1 then r.2 else 0) + n)))
    else (goBytesP fs rec p rest).map (fun n => sz + n)

/-- Path-model transcription of `analysis.count_bytes`. -/
def countBytesP (fs : RawFS) : Nat → List String → Option (Bool × Nat)
  | 0, _ => none
  | fuel + 1, p =>
    let L := list_directoryP fs p
    if !L.1 || L.2.isEmpty then some (false, 0)
    else (goBytesP fs (fun q => countBytesP fs fuel q) p L.2).map (fun n => (true, n))

/-- Paths of the cyclic file system: the root and every chain of `loop`
components below it (the link resolves back to the root). -/
def isCycPath : List String → Bool
  | "root" :: rest => rest.all (fun s => s = "loop")
  | _ => false

/-- A directory `root` holding one file `a.txt` of one byte and one
symbolic link `loop` whose target is `root` itself: the canonical
link-back-to-an-ancestor cycle.  Resolution through the link makes every
`root/loop/.../loop` list the same two entries. -/
def cycFS : RawFS :=
  { listdir := fun p => if isCycPath p then ["a.txt", "loop"] else []
    isDir := fun p => isCycPath p
    isLink := fun p =>
      (match p.getLast? with
       | some "loop" => true
       | _ => false)
    size := fun p =>
      (match p.getLast? with
       | some "a.txt" => 1
       | _ => 0) }

theorem stableInsert_perm (le : α → α → Bool) (x : α) (l : List α) :
    List.Perm (stableInsert le x l) (x :: l) := by
  induction l with
  | nil => simp [stableInsert]
  | cons y ys ih =>
    simp only [stableInsert]
    by_cases h : (le y x && !(le x y)) = true
    · simp only [h, if_pos]
      exact List.Perm.trans (List.Perm.cons y ih) (List.Perm.swap x y ys)
    · simp only [h]
      simp

theorem stableSort_perm (le : α → α → Bool) (l : List α) :
    List.Perm (stableSort le l) l := by
  induction l with
  | nil => exact List.Perm.refl _
  | cons x xs ih =>
    exact List.Perm.trans (stableInsert_perm le x (stableSort le xs)) (List.Perm.cons x ih)

theorem mem_stableSort (le : α → α → Bool) (l : List α) (a : α) :
    a ∈ stableSort le l ↔ a ∈ l :=
  (stableSort_perm le l).mem_iff

theorem pairwise_stableInsert (le : α → α → Bool)
    (htot : ∀ a b, le a b = true ∨ le b a = true)
    (htrans : ∀ a b c, le a b = true → le b c = true → le a c = true)
    (x : α) (l : List α) (h : List.Pairwise (fun a b => le a b = true) l) :
    List.Pairwise (fun a b => le a b = true) (stableInsert le x l) := by
  induction l with
  | nil => simp [stableInsert]
  | cons y ys ih =>
    simp only [stableInsert]
    rcases List.pairwise_cons.mp h with ⟨hy, hys⟩
    by_cases hc : (le y x && !(le x y)) = true
    · simp only [hc, if_pos]
      refine List.pairwise_cons.mpr ⟨?_, ih hys⟩
      intro b hb
      rcases List.mem_cons.mp ((stableInsert_perm le x ys).mem_iff.mp hb) with hbx | hbys
      · subst hbx
        exact ((Bool.and_eq_true _ _).mp hc).1
      · exact hy b hbys
    · rw [if_neg hc]
      have hxy : le x y = true := by
        rcases htot x y with h1 | h1
        · exact h1
        · by_cases h2 : le x y = true
          · exact h2
          · exfalso
            apply hc
            simp [h1, h2]
      refine List.pairwise_cons.mpr ⟨?_, h⟩
      intro b hb
      rcases List.mem_cons.mp hb with hby | hbys
      · subst hby; exact hxy
      · exact htrans x y b hxy (hy b hbys)

theorem pairwise_stableSort (le : α → α → Bool)
    (htot : ∀ a b, le a b = true ∨ le b a = true)
    (htrans : ∀ a b c, le a b = true → le b c = true → le a c = true)
    (l : List α) :
    List.Pairwise (fun a b => le a b = true) (stableSort le l) := by
  induction l with
  | nil => simp [stableSort]
  | cons x xs ih => exact pairwise_stableInsert le htot htrans x _ ih

theorem treeDepth_pos (t : FSTree) : 1 ≤ treeDepth t := by
  cases t <;> simp [treeDepth]

theorem treeDepthList_le_of_mem {cs : List (String × FSTree)} {e : String × FSTree}
    (h : e ∈ cs) : treeDepth e.2 ≤ treeDepthList cs := by
  induction cs with
  | nil => cases h
  | cons c rest ih =>
    rcases List.mem_cons.mp h with h | h
    · simp [treeDepthList, h]
    · exact le_trans (ih h) (by simp [treeDepthList])

mutual

/-- Structural induction principle for the nested inductive `FSTree`. -/
theorem FSTree.treeInd {motive : FSTree → Prop}
    (hfile : ∀ s, motive (.file s))
    (hbroken : motive .broken)
    (hlink : ∀ t, motive t → motive (.link t))
    (hdir : ∀ r cs, (∀ e ∈ cs, motive e.2) → motive (.dir r cs)) :
    ∀ t, motive t
  | .file s => hfile s
  | .broken => hbroken
  | .link t => hlink t (FSTree.treeInd hfile hbroken hlink hdir t)
  | .dir r cs => hdir r cs (FSTree.treeIndList hfile hbroken hlink hdir cs)

theorem FSTree.treeIndList {motive : FSTree → Prop}
    (hfile : ∀ s, motive (.file s))
    (hbroken : motive .broken)
    (hlink : ∀ t, motive t → motive (.link t))
    (hdir : ∀ r cs, (∀ e ∈ cs, motive e.2) → motive (.dir r cs)) :
    ∀ cs : List (String × FSTree), ∀ e ∈ cs, motive e.2
  | [] => by
    intro e he
    cases he
  | c :: rest => by
    intro e he
    rcases List.mem_cons.mp he with h | h
    · exact h ▸ FSTree.treeInd hfile hbroken hlink hdir c.2
    · exact FSTree.treeIndList hfile hbroken hlink hdir rest e h

end

/-- Every entry of a directory listing has strictly smaller height than
the listed node. -/
theorem treeDepth_listing_lt (t : FSTree) :
    ∀ e ∈ (list_directory t).2, treeDepth e.2 < treeDepth t := by
  induction t using FSTree.treeInd with
  | hfile s => intro e h; simp [list_directory] at h
  | hbroken => intro e h; simp [list_directory] at h
  | hlink tgt ih =>
    intro e h
    have : treeDepth e.2 < treeDepth tgt := ih e (by simpa [list_directory] using h)
    simp only [treeDepth]
    omega
  | hdir r cs ih =>
    intro e h
    cases r with
    | false => simp [list_directory] at h
    | true =>
      have hmem : e ∈ cs.filter (fun x => !statFails x.2) := by
        simpa [list_directory, mem_stableSort] using h
      have hmem2 : e ∈ cs := List.mem_of_mem_filter hmem
      have := treeDepthList_le_of_mem hmem2
      simp only [treeDepth]
      omega

theorem goCount_congr (rec1 rec2 : FSTree → Bool × Nat) :
    ∀ l : List (String × FSTree), (∀ e ∈ l, rec1 e.2 = rec2 e.2) →
    goCount rec1 l = goCount rec2 l := by
  intro l
  induction l with
  | nil => intro _; rfl
  | cons e rest ih =>
    intro h
    simp only [goCount]
    rw [h e (List.mem_cons_self e rest), ih (fun x hx => h x (List.mem_cons_of_mem e hx))]

theorem goBytes_congr (rec1 rec2 : FSTree → Bool × Nat) :
    ∀ l : List (String × FSTree), (∀ e ∈ l, rec1 e.2 = rec2 e.2) →
    goBytes rec1 l = goBytes rec2 l := by
  intro l
  induction l with
  | nil => intro _; rfl
  | cons e rest ih =>
    intro h
    simp only [goBytes]
    rw [h e (List.mem_cons_self e rest), ih (fun x hx => h x (List.mem_cons_of_mem e hx))]

theorem countF_irrel : ∀ (d : Nat) (t : FSTree), treeDepth t ≤ d →
    ∀ f g, treeDepth t ≤ f → treeDepth t ≤ g → countF f t = countF g t := by
  intro d
  induction d with
  | zero =>
    intro t ht
    have := treeDepth_pos t
    omega
  | succ d ih =>
    intro t ht f g hf hg
    have h1 := treeDepth_pos t
    cases f with
    | zero => omega
    | succ f2 =>
      cases g with
      | zero => omega
      | succ g2 =>
        simp only [countF]
        by_cases hguard : (!(list_directory t).1 || (list_directory t).2.isEmpty) = true
        · simp [hguard]
        · simp only [hguard]
          simp only [Bool.false_eq_true, if_false]
          have : goCount (fun c => countF f2 c) (list_directory t).2 =
              goCount (fun c => countF g2 c) (list_directory t).2 := by
            apply goCount_congr
            intro e he
            have hlt := treeDepth_listing_lt t e he
            exact ih e.2 (by omega) f2 g2 (by omega) (by omega)
          rw [this]

theorem bytesF_irrel : ∀ (d : Nat) (t : FSTree), treeDepth t ≤ d →
    ∀ f g, treeDepth t ≤ f → treeDepth t ≤ g → bytesF f t = bytesF g t := by
  intro d
  induction d with
  | zero =>
    intro t ht
    have := treeDepth_pos t
    omega
  | succ d ih =>
    intro t ht f g hf hg
    have h1 := treeDepth_pos t
    cases f with
    | zero => omega
    | succ f2 =>
      cases g with
      | zero => omega
      | succ g2 =>
        simp only [bytesF]
        by_cases hguard : (!(list_directory t).1 || (list_directory t).2.isEmpty) = true
        · simp [hguard]
        · simp only [hguard]
          simp only [Bool.false_eq_true, if_false]
          have : goBytes (fun c => bytesF f2 c) (list_directory t).2 =
              goBytes (fun c => bytesF g2 c) (list_directory t).2 := by
            apply goBytes_congr
            intro e he
            have hlt := treeDepth_listing_lt t e he
            exact ih e.2 (by omega) f2 g2 (by omega) (by omega)
          rw [this]

theorem countF_eq_count_files (t : FSTree) (f : Nat) (hf : treeDepth t ≤ f) :
    countF f t = count_files t :=
  countF_irrel (treeDepth t) t le_rfl f (treeDepth t) hf le_rfl

theorem bytesF_eq_count_bytes (t : FSTree) (f : Nat) (hf : treeDepth t ≤ f) :
    bytesF f t = count_bytes t :=
  bytesF_irrel (treeDepth t) t le_rfl f (treeDepth t) hf le_rfl

theorem goCount_eq_sum (rec : FSTree → Bool × Nat) :
    ∀ l : List (String × FSTree),
    goCount rec l = (l.map (fun e => if isDirNode e.2 then cv (rec e.2) else 1)).sum := by
  intro l
  induction l with
  | nil => rfl
  | cons e rest ih => simp [goCount, ih, cv]

theorem goBytes_eq_sum (rec : FSTree → Bool × Nat) :
    ∀ l : List (String × FSTree),
    goBytes rec l = (l.map (fun e =>
      if isDirNode e.2 then (if isLinkNode e.2 then 0 else cv (rec e.2))
      else entrySize e.2)).sum := by
  intro l
  induction l with
  | nil => rfl
  | cons e rest ih => simp [goBytes, ih, cv]

theorem sum_map_filter_eq (f : α → Nat) (p : α → Bool) :
    ∀ l : List α,
    ((l.filter p).map f).sum = (l.map (fun x => if p x then f x else 0)).sum := by
  intro l
  induction l with
  | nil => rfl
  | cons x rest ih =>
    by_cases h : p x = true
    · simp [List.filter_cons, h, ih]
    · simp only [List.filter_cons, h]
      simp only [Bool.false_eq_true, if_false, List.map_cons, List.sum_cons, ih]
      simp [h]

theorem listing_isEmpty_iff (r : Bool) (cs : List (String × FSTree)) :
    (list_directory (FSTree.dir r cs)).2.isEmpty =
      (!r || !cs.any (fun e => !statFails e.2)) := by
  cases r with
  | false => simp [list_directory]
  | true =>
    simp only [list_directory, Bool.not_true, Bool.false_or]
    have hlen : (stableSort entryLe (cs.filter (fun e => !statFails e.2))).length
        = (cs.filter (fun e => !statFails e.2)).length :=
      (stableSort_perm _ _).length_eq
    by_cases h : cs.any (fun e => !statFails e.2) = true
    · rw [h]
      simp only [Bool.not_true]
      rcases List.any_eq_true.mp h with ⟨x, hx, hpx⟩
      have hmem : x ∈ cs.filter (fun e => !statFails e.2) := List.mem_filter.mpr ⟨hx, hpx⟩
      have hne : (cs.filter (fun e => !statFails e.2)).length ≠ 0 := by
        intro h0
        rw [List.length_eq_zero] at h0
        rw [h0] at hmem
        cases hmem
      cases hS : stableSort entryLe (cs.filter (fun e => !statFails e.2)) with
      | nil =>
        exfalso
        apply hne
        rw [← hlen, hS]
        rfl
      | cons a l => rfl
    · have h2 : cs.any (fun e => !statFails e.2) = false := Bool.eq_false_iff.mpr h
      rw [h2]
      simp only [Bool.not_false]
      have hnil : cs.filter (fun e => !statFails e.2) = [] := by
        rw [List.filter_eq_nil_iff]
        intro a ha
        intro hcon
        exact h (List.any_eq_true.mpr ⟨a, ha, hcon⟩)
      rw [hnil]
      rfl

/-- Characterization of `count_files` one level down: a directory listing
succeeds only when the directory is readable and at least one entry
survives the metadata pass; the count is then the sum of the per-child
contributions, independently of the listing order. -/
theorem countF_dir_succ (fuel : Nat) (r : Bool) (cs : List (String × FSTree)) :
    countF (fuel + 1) (FSTree.dir r cs) =
      if (r && cs.any (fun e => !statFails e.2)) = true then
        (true, (cs.map (countContrib fuel)).sum)
      else (false, 0) := by
  cases r with
  | false => simp [countF, list_directory]
  | true =>
    simp only [countF, listing_isEmpty_iff]
    simp only [list_directory, Bool.not_true, Bool.false_or, Bool.true_and]
    by_cases h : cs.any (fun e => !statFails e.2) = true
    · simp only [h, Bool.not_true, Bool.or_false, if_false]
      simp only [Bool.false_eq_true, if_false, if_pos rfl]
      have h2 : goCount (fun c => countF fuel c)
          (stableSort entryLe (cs.filter (fun e => !statFails e.2))) =
          (cs.map (countContrib fuel)).sum := by
        rw [goCount_eq_sum]
        have hperm := (stableSort_perm entryLe (cs.filter (fun e => !statFails e.2))).map
          (fun e => if isDirNode e.2 then cv (countF fuel e.2) else 1)
        rw [hperm.sum_eq, sum_map_filter_eq]
        congr 1
        apply List.map_congr_left
        intro e he
        by_cases hs : statFails e.2 = true <;> simp [countContrib, hs]
      rw [h2]
      simp
    · simp [h]

/-- Characterization of `count_bytes` one level down. -/
theorem bytesF_dir_succ (fuel : Nat) (r : Bool) (cs : List (String × FSTree)) :
    bytesF (fuel + 1) (FSTree.dir r cs) =
      if (r && cs.any (fun e => !statFails e.2)) = true then
        (true, (cs.map (bytesContrib fuel)).sum)
      else (false, 0) := by
  cases r with
  | false => simp [bytesF, list_directory]
  | true =>
    simp only [bytesF, listing_isEmpty_iff]
    simp only [list_directory, Bool.not_true, Bool.false_or, Bool.true_and]
    by_cases h : cs.any (fun e => !statFails e.2) = true
    · simp only [h, Bool.not_true, Bool.or_false, if_false]
      simp only [Bool.false_eq_true, if_false, if_pos rfl]
      have h2 : goBytes (fun c => bytesF fuel c)
          (stableSort entryLe (cs.filter (fun e => !statFails e.2))) =
          (cs.map (bytesContrib fuel)).sum := by
        rw [goBytes_eq_sum]
        have hperm := (stableSort_perm entryLe (cs.filter (fun e => !statFails e.2))).map
          (fun e => if isDirNode e.2 then (if isLinkNode e.2 then 0 else cv (bytesF fuel e.2))
            else entrySize e.2)
        rw [hperm.sum_eq, sum_map_filter_eq]
        congr 1
        apply List.map_congr_left
        intro e he
        by_cases hs : statFails e.2 = true <;> simp [bytesContrib, hs]
      rw [h2]
      simp
    · simp [h]

theorem countF_dir_false (fuel : Nat) (cs : List (String × FSTree)) :
    countF fuel (FSTree.dir false cs) = (false, 0) := by
  cases fuel with
  | zero => rfl
  | succ f => simp [countF_dir_succ]

theorem countF_snd_eq_cv (fuel : Nat) (t : FSTree) :
    (countF fuel t).2 = cv (countF fuel t) := by
  cases fuel with
  | zero => rfl
  | succ f =>
    simp only [countF, cv]
    by_cases h : (!(list_directory t).1 || (list_directory t).2.isEmpty) = true
    · simp [h]
    · simp [h]

theorem sum_countContrib_zero (fuel : Nat) :
    ∀ l : List (String × FSTree), l.any (fun e => !statFails e.2) = false →
    (l.map (countContrib fuel)).sum = 0 := by
  intro l
  induction l with
  | nil => intro _; rfl
  | cons e rest ih =>
    intro h
    simp only [List.any_cons, Bool.or_eq_false_iff] at h
    have h1 : statFails e.2 = true := by
      rcases h with ⟨h1, _⟩
      simpa using h1
    simp only [List.map_cons, List.sum_cons, countContrib, h1, if_pos]
    rw [ih (by simp [h.2])]

theorem any_updateChild (p : String × FSTree → Bool) (g : FSTree → FSTree) :
    ∀ (cs : List (String × FSTree)) (i : Nat) (e : String × FSTree),
    cs[i]? = some e → p (e.1, g e.2) = true →
    (updateChild cs i g).any p = true := by
  intro cs
  induction cs with
  | nil => intro i e h; simp at h
  | cons c rest ih =>
    intro i e h hp
    cases i with
    | zero =>
      simp only [List.getElem?_cons_zero, Option.some.injEq] at h
      subst h
      simp [updateChild, hp]
    | succ j =>
      simp only [List.getElem?_cons_succ] at h
      simp [updateChild, ih j e h hp]

theorem sum_update_erase (f : String × FSTree → Nat) (g : FSTree → FSTree) :
    ∀ (cs : List (String × FSTree)) (i : Nat) (e : String × FSTree),
    cs[i]? = some e →
    ((updateChild cs i g).map f).sum = ((cs.eraseIdx i).map f).sum + f (e.1, g e.2) := by
  intro cs
  induction cs with
  | nil => intro i e h; simp at h
  | cons c rest ih =>
    intro i e h
    cases i with
    | zero =>
      simp only [List.getElem?_cons_zero, Option.some.injEq] at h
      subst h
      simp [updateChild, List.eraseIdx]
      omega
    | succ j =>
      simp only [List.getElem?_cons_succ] at h
      simp only [updateChild, List.eraseIdx, List.map_cons, List.sum_cons, ih j e h]
      omega

theorem sum_updateChild_congr (f : String × FSTree → Nat) (g h : FSTree → FSTree) :
    ∀ (cs : List (String × FSTree)) (i : Nat) (e : String × FSTree),
    cs[i]? = some e → f (e.1, g e.2) = f (e.1, h e.2) →
    ((updateChild cs i g).map f).sum = ((updateChild cs i h).map f).sum := by
  intro cs
  induction cs with
  | nil => intro i e hm _; simp at hm
  | cons c rest ih =>
    intro i e hm hf
    cases i with
    | zero =>
      simp only [List.getElem?_cons_zero, Option.some.injEq] at hm
      subst hm
      simp only [updateChild, List.map_cons, List.sum_cons, hf]
    | succ j =>
      simp only [List.getElem?_cons_succ] at hm
      simp only [updateChild, List.map_cons, List.sum_cons, ih j e hm hf]

theorem pathToDir_shape {t : FSTree} {q : List Nat} (h : pathToDir t q = true) :
    ∃ r cs, t = FSTree.dir r cs := by
  cases t with
  | dir r cs => exact ⟨r, cs, rfl⟩
  | file s => cases q <;> simp [pathToDir] at h
  | link tgt => cases q <;> simp [pathToDir] at h
  | broken => cases q <;> simp [pathToDir] at h

theorem markAt_dir (q : List Nat) (re : Bool) (ce : List (String × FSTree)) :
    ∃ r2 c2, markAt (FSTree.dir re ce) q = FSTree.dir r2 c2 := by
  cases q with
  | nil => exact ⟨false, ce, rfl⟩
  | cons i rest => exact ⟨re, updateChild ce i (fun c => markAt c rest), rfl⟩

theorem removeAt_dir (q : List Nat) (re : Bool) (ce : List (String × FSTree)) :
    ∃ r2 c2, removeAt (FSTree.dir re ce) q = FSTree.dir r2 c2 := by
  cases q with
  | nil => exact ⟨re, ce, rfl⟩
  | cons i rest =>
    cases rest with
    | nil => exact ⟨re, ce.eraseIdx i, rfl⟩
    | cons j r2 => exact ⟨re, updateChild ce i (fun c => removeAt c (j :: r2)), rfl⟩

theorem countF_dir_succ_pos (fuel : Nat) (cs : List (String × FSTree))
    (h : cs.any (fun e => !statFails e.2) = true) :
    countF (fuel + 1) (FSTree.dir true cs) = (true, (cs.map (countContrib fuel)).sum) := by
  rw [countF_dir_succ]
  simp [h]

theorem countF_dir_succ_neg (fuel : Nat) (r : Bool) (cs : List (String × FSTree))
    (h : (r && cs.any (fun e => !statFails e.2)) = false) :
    countF (fuel + 1) (FSTree.dir r cs) = (false, 0) := by
  rw [countF_dir_succ]
  simp [h]

theorem bytesF_dir_succ_pos (fuel : Nat) (cs : List (String × FSTree))
    (h : cs.any (fun e => !statFails e.2) = true) :
    bytesF (fuel + 1) (FSTree.dir true cs) = (true, (cs.map (bytesContrib fuel)).sum) := by
  rw [bytesF_dir_succ]
  simp [h]

theorem bytesF_dir_succ_neg (fuel : Nat) (r : Bool) (cs : List (String × FSTree))
    (h : (r && cs.any (fun e => !statFails e.2)) = false) :
    bytesF (fuel + 1) (FSTree.dir r cs) = (false, 0) := by
  rw [bytesF_dir_succ]
  simp [h]

/-- Core of the failure-absorption argument: at any fuel, making the
subdirectory at a non-root position unreadable and removing it altogether
give the same swallowed contribution to every ancestor of the position. -/
theorem cv_mark_remove :
    ∀ (p : List Nat) (t : FSTree), p ≠ [] → pathToDir t p = true →
    ∀ fuel, cv (countF fuel (markAt t p)) = cv (countF fuel (removeAt t p)) := by
  intro p
  induction p with
  | nil => intro t h; exact absurd rfl h
  | cons i rest ih =>
    intro t _ hpath fuel
    obtain ⟨r, cs, rfl⟩ := pathToDir_shape hpath
    have hpath2 : (match cs[i]? with
        | some e => pathToDir e.2 rest
        | none => false) = true := by
      simpa [pathToDir] using hpath
    cases hE : cs[i]? with
    | none =>
      rw [hE] at hpath2
      simp at hpath2
    | some e =>
      rw [hE] at hpath2
      obtain ⟨re, ce, he⟩ := pathToDir_shape hpath2
      cases fuel with
      | zero => rfl
      | succ f =>
        cases rest with
        | nil =>
          have hmark : markAt (FSTree.dir r cs) [i] =
              FSTree.dir r (updateChild cs i (fun c => markAt c [])) := by
            simp [markAt]
          have hrem : removeAt (FSTree.dir r cs) [i] =
              FSTree.dir r (cs.eraseIdx i) := by
            simp [removeAt]
          rw [hmark, hrem]
          have hmarked : markAt e.2 [] = FSTree.dir false ce := by
            rw [he]
            simp [markAt]
          cases r with
          | false =>
            rw [countF_dir_succ_neg f false _ (by simp),
              countF_dir_succ_neg f false _ (by simp)]
          | true =>
            have hanyU : (updateChild cs i (fun c => markAt c [])).any
                (fun x => !statFails x.2) = true := by
              apply any_updateChild _ _ cs i e hE
              rw [hmarked]
              rfl
            have hcontrib : countContrib f (e.1, markAt e.2 []) = 0 := by
              rw [hmarked]
              simp [countContrib, statFails, isDirNode, countF_dir_false, cv]
            have hsum := sum_update_erase (countContrib f) (fun c => markAt c []) cs i e hE
            rw [countF_dir_succ_pos f _ hanyU]
            by_cases hany : (cs.eraseIdx i).any (fun x => !statFails x.2) = true
            · rw [countF_dir_succ_pos f _ hany]
              simp only [cv, if_pos rfl]
              rw [hsum, hcontrib]
              simp
            · have hany2 : (cs.eraseIdx i).any (fun x => !statFails x.2) = false :=
                Bool.eq_false_iff.mpr hany
              rw [countF_dir_succ_neg f true _ (by simp [hany2])]
              have hz := sum_countContrib_zero f (cs.eraseIdx i) hany2
              simp only [cv, if_pos rfl]
              rw [hsum, hcontrib, hz]
              simp
        | cons j rest2 =>
          have hmark : markAt (FSTree.dir r cs) (i :: j :: rest2) =
              FSTree.dir r (updateChild cs i (fun c => markAt c (j :: rest2))) := by
            simp [markAt]
          have hrem : removeAt (FSTree.dir r cs) (i :: j :: rest2) =
              FSTree.dir r (updateChild cs i (fun c => removeAt c (j :: rest2))) := by
            simp [removeAt]
          rw [hmark, hrem]
          obtain ⟨rm, cm, hm⟩ := markAt_dir (j :: rest2) re ce
          obtain ⟨rr, cr, hr⟩ := removeAt_dir (j :: rest2) re ce
          have hsm : statFails (markAt e.2 (j :: rest2)) = false := by
            rw [he, hm]; rfl
          have hsr : statFails (removeAt e.2 (j :: rest2)) = false := by
            rw [he, hr]; rfl
          have hdm : isDirNode (markAt e.2 (j :: rest2)) = true := by
            rw [he, hm]; rfl
          have hdr : isDirNode (removeAt e.2 (j :: rest2)) = true := by
            rw [he, hr]; rfl
          cases r with
          | false =>
            rw [countF_dir_succ_neg f false _ (by simp),
              countF_dir_succ_neg f false _ (by simp)]
          | true =>
            have hanyU : (updateChild cs i (fun c => markAt c (j :: rest2))).any
                (fun x => !statFails x.2) = true := by
              apply any_updateChild _ _ cs i e hE
              simp [hsm]
            have hanyR : (updateChild cs i (fun c => removeAt c (j :: rest2))).any
                (fun x => !statFails x.2) = true := by
              apply any_updateChild _ _ cs i e hE
              simp [hsr]
            have hcontrib : countContrib f (e.1, markAt e.2 (j :: rest2)) =
                countContrib f (e.1, removeAt e.2 (j :: rest2)) := by
              simp only [countContrib, hsm, hsr, hdm, hdr]
              simp only [Bool.false_eq_true, if_false, if_pos rfl]
              exact ih e.2 (by simp) hpath2 f
            rw [countF_dir_succ_pos f _ hanyU, countF_dir_succ_pos f _ hanyR]
            have hfin := sum_updateChild_congr (countContrib f)
              (fun c => markAt c (j :: rest2)) (fun c => removeAt c (j :: rest2))
              cs i e hE hcontrib
            simp [cv, hfin]

/-- C1.  Failure absorption: for every link-free tree with a readable
root, making any single non-root subdirectory unreadable leaves the
recursive file count equal to the count over the same tree with that
subdirectory removed, and the traversal of the root still reports
success; the failed recursive call is swallowed and the parent continues
with the remaining siblings. -/
theorem claim_C1_failure_absorption
    (cs : List (String × FSTree)) (p : List Nat)
    (hp : p ≠ [])
    (hpath : pathToDir (FSTree.dir true cs) p = true)
    (hlf : linkFree (FSTree.dir true cs) = true) :
    (count_files (markAt (FSTree.dir true cs) p)).1 = true ∧
    (count_files (markAt (FSTree.dir true cs) p)).2 =
      (count_files (removeAt (FSTree.dir true cs) p)).2 := by
  have hvalue : (count_files (markAt (FSTree.dir true cs) p)).2 =
      (count_files (removeAt (FSTree.dir true cs) p)).2 := by
    have h1 := countF_eq_count_files (markAt (FSTree.dir true cs) p)
      (max (treeDepth (markAt (FSTree.dir true cs) p))
        (treeDepth (removeAt (FSTree.dir true cs) p))) (le_max_left _ _)
    have h2 := countF_eq_count_files (removeAt (FSTree.dir true cs) p)
      (max (treeDepth (markAt (FSTree.dir true cs) p))
        (treeDepth (removeAt (FSTree.dir true cs) p))) (le_max_right _ _)
    rw [← h1, ← h2, countF_snd_eq_cv, countF_snd_eq_cv]
    exact cv_mark_remove p (FSTree.dir true cs) hp hpath _
  refine ⟨?_, hvalue⟩
  cases p with
  | nil => exact absurd rfl hp
  | cons i rest =>
    have hpath2 : (match cs[i]? with
        | some e => pathToDir e.2 rest
        | none => false) = true := by
      simpa [pathToDir] using hpath
    cases hE : cs[i]? with
    | none =>
      rw [hE] at hpath2
      simp at hpath2
    | some e =>
      rw [hE] at hpath2
      obtain ⟨re, ce, he⟩ := pathToDir_shape hpath2
      obtain ⟨rm, cm, hm⟩ := markAt_dir rest re ce
      have hmark : markAt (FSTree.dir true cs) (i :: rest) =
          FSTree.dir true (updateChild cs i (fun c => markAt c rest)) := by
        simp [markAt]
      have hanyU : (updateChild cs i (fun c => markAt c rest)).any
          (fun x => !statFails x.2) = true := by
        apply any_updateChild _ _ cs i e hE
        have : statFails (markAt e.2 rest) = false := by
          rw [he, hm]; rfl
        simp [this]
      rw [hmark]
      show (countF (treeDepth (FSTree.dir true (updateChild cs i (fun c => markAt c rest))))
        (FSTree.dir true (updateChild cs i (fun c => markAt c rest)))).1 = true
      have hd : treeDepth (FSTree.dir true (updateChild cs i (fun c => markAt c rest))) =
          treeDepthList (updateChild cs i (fun c => markAt c rest)) + 1 := by
        simp [treeDepth]
      rw [hd, countF_dir_succ_pos _ _ hanyU]

/-- Witness for C1 at a concrete tree: making `sub` unreadable keeps the
root traversal successful, and the count (1, only `g.txt`) agrees with
the count after removing `sub`. -/
theorem claim_C1_witness :
    (count_files (markAt (FSTree.dir true c1Children) [0])).1 = true ∧
    (count_files (markAt (FSTree.dir true c1Children) [0])).2 =
      (count_files (removeAt (FSTree.dir true c1Children) [0])).2 :=
  claim_C1_failure_absorption c1Children [0] (by decide) (by decide) (by decide)

/-- C3.  On the scenario tree the file count is 3, the byte total is 160,
the extension histogram holds exactly the buckets `.txt` (2 files, 150
bytes) and `.bin` (1 file, 10 bytes), and the top-1 largest list is
`root/a.txt` with 100 bytes. -/
theorem claim_C3_concrete_scenario :
    count_files exTree = (true, 3) ∧
    count_bytes exTree = (true, 160) ∧
    (analyze_windows_file_types exTree).1 = true ∧
    (analyze_windows_file_types exTree).2.lookup ".txt" = some (2, 150) ∧
    (analyze_windows_file_types exTree).2.lookup ".bin" = some (1, 10) ∧
    (analyze_windows_file_types exTree).2.length = 2 ∧
    _get_largest_files "root" exTree 1 = [("root/a.txt", 100)] := by decide

/-- C5 counterexample: an accessible directory with zero entries makes
`count_files` report failure, not success — the guard
`if not success or not items` conflates an empty listing with a read
failure. -/
theorem claim_C5_counterexample :
    (count_files (FSTree.dir true [])).1 = false := by decide

/-- C5 as amended: for every directory with no children (readable or
not), `count_files` returns the failure result `(false, 0)`; at non-root
positions this failure is swallowed by the parent and contributes zero,
so only a root-level empty directory surfaces it. -/
theorem claim_C5_empty_directory (r : Bool) :
    count_files (FSTree.dir r []) = (false, 0) := by
  cases r <;> decide

/-- C4 counterexample: a permission-denied directory is listed as a
success with an empty sequence (`safe_windows_listdir` absorbs the OS
error), and a readable directory whose single entry has unreadable
metadata is listed successfully with that entry silently omitted. -/
theorem claim_C4_counterexample :
    (list_directory (FSTree.dir false [("secret.txt", FSTree.file 5)])).1 = true ∧
    (list_directory (FSTree.dir false [("secret.txt", FSTree.file 5)])).2.isEmpty = true ∧
    (list_directory (FSTree.dir true [("ghost", FSTree.broken)])).1 = true ∧
    (list_directory (FSTree.dir true [("ghost", FSTree.broken)])).2.isEmpty = true := by decide

/-- C4 as amended: `list_directory` never signals failure in any modelled
situation — an unreadable directory and a non-directory path both come
back as a success with an empty listing, and an entry whose metadata
cannot be read is dropped from an otherwise successful listing. -/
theorem claim_C4_reader_contract :
    (∀ cs, list_directory (FSTree.dir false cs) = (true, [])) ∧
    (∀ s, list_directory (FSTree.file s) = (true, [])) ∧
    (∀ t, (list_directory t).1 = true) ∧
    (∀ nm cs, list_directory (FSTree.dir true ((nm, FSTree.broken) :: cs)) =
      list_directory (FSTree.dir true cs)) := by
  refine ⟨fun cs => rfl, fun s => rfl, ?_, ?_⟩
  · intro t
    induction t using FSTree.treeInd with
    | hfile s => rfl
    | hbroken => rfl
    | hlink tgt ih => simpa [list_directory] using ih
    | hdir r cs ih => cases r <;> rfl
  · intro nm cs
    simp [list_directory, List.filter_cons, statFails]

theorem searchF_dir_false (keep : String → Bool) (n : Nat) (path : String)
    (cs : List (String × FSTree)) :
    searchF keep (n + 1) path (FSTree.dir false cs) = [] := by
  simp [searchF, list_directory]

theorem largeF_dir_false (minBytes n : Nat) (path : String)
    (cs : List (String × FSTree)) :
    largeF minBytes (n + 1) path (FSTree.dir false cs) = [] := by
  simp [largeF, list_directory]

theorem treeDepth_dir (r : Bool) (cs : List (String × FSTree)) :
    treeDepth (FSTree.dir r cs) = treeDepthList cs + 1 := by
  simp [treeDepth]

/-- C10.  Every filter-style search is total and returns the empty list
when the root is unreadable (or is a plain file, as for a missing path
the underlying listing is the same empty one) — indistinguishable from a
successful search without matches; the aggregators instead surface a
false success flag at such a root. -/
theorem claim_C10_filters_empty_on_unreadable_root :
    (∀ pattern path case_sensitive cs,
      find_files_windows pattern path (FSTree.dir false cs) case_sensitive = []) ∧
    (∀ exts path cs, find_by_windows_extension exts path (FSTree.dir false cs) = []) ∧
    (∀ mb path cs, find_large_files_windows mb path (FSTree.dir false cs) = []) ∧
    (∀ pattern path case_sensitive s,
      find_files_windows pattern path (FSTree.file s) case_sensitive = []) ∧
    (∀ exts path s, find_by_windows_extension exts path (FSTree.file s) = []) ∧
    (∀ mb path s, find_large_files_windows mb path (FSTree.file s) = []) ∧
    (∀ cs, count_files (FSTree.dir false cs) = (false, 0)) := by
  refine ⟨?_, ?_, ?_, ?_, ?_, ?_, ?_⟩
  · intro pattern path case_sensitive cs
    show searchF _ (treeDepth (FSTree.dir false cs)) path _ = []
    rw [treeDepth_dir]
    exact searchF_dir_false _ _ _ _
  · intro exts path cs
    show searchF _ (treeDepth (FSTree.dir false cs)) path _ = []
    rw [treeDepth_dir]
    exact searchF_dir_false _ _ _ _
  · intro mb path cs
    show stableSort largeGe (largeF _ (treeDepth (FSTree.dir false cs)) path _) = []
    rw [treeDepth_dir, largeF_dir_false]
    rfl
  · intro pattern path case_sensitive s
    rfl
  · intro exts path s
    rfl
  · intro mb path s
    rfl
  · intro cs
    show countF (treeDepth (FSTree.dir false cs)) _ = (false, 0)
    exact countF_dir_false _ _

theorem lastDotSuffix_none_of_nodot :
    ∀ m : List Char, (∀ c ∈ m, c ≠ '.') → lastDotSuffix m = none := by
  intro m
  induction m with
  | nil => intro _; rfl
  | cons c rest ih =>
    intro h
    simp only [lastDotSuffix]
    rw [ih (fun x hx => h x (List.mem_cons_of_mem c hx))]
    simp [h c (List.mem_cons_self c rest)]

theorem lastDotSuffix_append_nodot :
    ∀ (l m : List Char), (∀ c ∈ m, c ≠ '.') →
    lastDotSuffix (l ++ '.' :: m) = some ('.' :: m) := by
  intro l m hm
  induction l with
  | nil =>
    simp only [List.nil_append, lastDotSuffix]
    rw [lastDotSuffix_none_of_nodot m hm]
    simp
  | cons c rest ih =>
    simp only [List.cons_append, lastDotSuffix, List.append_eq, ih]

theorem dropWhile_ne_nil_of_exists :
    ∀ (l : List Char) (p : Char → Bool), (∃ c ∈ l, p c = false) →
    l.dropWhile p ≠ [] := by
  intro l p
  induction l with
  | nil => rintro ⟨c, hc, _⟩; cases hc
  | cons a rest ih =>
    rintro ⟨c, hc, hpc⟩
    by_cases ha : p a = true
    · rw [List.dropWhile_cons_of_pos ha]
      apply ih
      rcases List.mem_cons.mp hc with h | h
      · subst h; rw [ha] at hpc; cases hpc
      · exact ⟨c, h, hpc⟩
    · rw [List.dropWhile_cons_of_neg ha]
      simp

/-- Extension of any name formed by a stem containing at least one
non-dot character followed by a dot and a dot-free tail: exactly the dot
and the tail. -/
theorem extOf_stem_tail (stem tail : List Char)
    (hstem : ∃ c ∈ stem, c ≠ '.') (htail : ∀ c ∈ tail, c ≠ '.') :
    extOf (String.mk (stem ++ '.' :: tail)) = String.mk ('.' :: tail) := by
  have htolist : (String.mk (stem ++ '.' :: tail)).toList = stem ++ '.' :: tail := rfl
  have hne : stem.dropWhile (fun c => c = '.') ≠ [] := by
    apply dropWhile_ne_nil_of_exists
    rcases hstem with ⟨c, hc, hcne⟩
    exact ⟨c, hc, by simp [hcne]⟩
  have hdrop : (stem ++ '.' :: tail).dropWhile (fun c => c = '.') =
      stem.dropWhile (fun c => c = '.') ++ '.' :: tail := by
    rw [List.dropWhile_append]
    rw [if_neg (by simpa using hne)]
  simp only [extOf, htolist, hdrop]
  rw [lastDotSuffix_append_nodot _ tail htail]

/-- C7.  Extension normalization: the filter inputs `TXT`, `.txt` and
`txt` (and `exe`, `.EXE`, `.exe`) normalize to one dotted lower-case
form; any file name built from a stem with a non-dot character and the
suffix `.TXT` or `.txt` lands in the histogram bucket `.txt`; a dot-free
name is keyed by the sentinel; the extension filter depends only on the
normalized input set, so equivalent spellings select the same files; and
`a.txt` plus `b.TXT` aggregate into one `.txt` bucket. -/
theorem claim_C7_extension_normalization :
    (normInputExt "TXT" = ".txt" ∧ normInputExt ".txt" = ".txt" ∧
     normInputExt "txt" = ".txt" ∧ normInputExt "exe" = ".exe" ∧
     normInputExt ".EXE" = ".exe" ∧ normInputExt ".exe" = ".exe") ∧
    (∀ stem : List Char, (∃ c ∈ stem, c ≠ '.') →
      histKey (String.mk (stem ++ '.' :: ['T', 'X', 'T'])) = ".txt" ∧
      histKey (String.mk (stem ++ '.' :: ['t', 'x', 't'])) = ".txt") ∧
    (∀ name : String, (∀ c ∈ name.toList, c ≠ '.') →
      histKey name = "(no extension)") ∧
    ((analyze_windows_file_types
        (FSTree.dir true [("a.txt", FSTree.file 1), ("b.TXT", FSTree.file 2)])).2 =
      [(".txt", 2, 3)]) ∧
    (∀ e1 e2 : String, normInputExt e1 = normInputExt e2 →
      ∀ path t, find_by_windows_extension [e1] path t =
        find_by_windows_extension [e2] path t) := by
  refine ⟨by decide, ?_, ?_, by decide, ?_⟩
  · intro stem hstem
    constructor
    · rw [histKey, extOf_stem_tail stem ['T', 'X', 'T'] hstem (by decide)]
      decide
    · rw [histKey, extOf_stem_tail stem ['t', 'x', 't'] hstem (by decide)]
      decide
  · intro name hname
    have hnone : lastDotSuffix (name.toList.dropWhile (fun c => c = '.')) = none := by
      apply lastDotSuffix_none_of_nodot
      intro c hc
      exact hname c ((List.dropWhile_sublist _).mem hc)
    simp only [String.toList] at hnone
    simp [histKey, extOf, String.toList, hnone]
  · intro e1 e2 h path t
    simp only [find_by_windows_extension, List.map]
    rw [h]

/-- Witness for C7 at concrete inputs: a `.TXT` name lands in the `.txt`
bucket, a dot-free name gets the sentinel key, and the spellings `exe`
and `.EXE` give the same search results on the scenario tree. -/
theorem claim_C7_witness :
    histKey "a.TXT" = ".txt" ∧ histKey "README" = "(no extension)" ∧
    find_by_windows_extension ["exe"] "root" exTree =
      find_by_windows_extension [".EXE"] "root" exTree := by
  refine ⟨?_, ?_, ?_⟩
  · exact (claim_C7_extension_normalization.2.1 ['a'] ⟨'a', by decide, by decide⟩).1
  · exact claim_C7_extension_normalization.2.2.1 "README" (by decide)
  · exact claim_C7_extension_normalization.2.2.2.2 "exe" ".EXE" (by decide) "root" exTree

theorem tails_any_isEmpty : ∀ s : List Char, s.tails.any (fun t => t.isEmpty) = true := by
  intro s
  induction s with
  | nil => rfl
  | cons c rest ih => simp [List.tails_cons, ih]

theorem glob_star_all (s : List Char) : globCs ['*'] s = true := by
  show globMatchToks false (globTranslate ['*']) s = true
  have ht : globTranslate ['*'] = [GlobTok.star] := rfl
  rw [ht]
  simp only [globMatchToks]
  exact tails_any_isEmpty s

theorem glob_question_one (s : List Char) : globCs ['?'] s = true ↔ s.length = 1 := by
  show globMatchToks false (globTranslate ['?']) s = true ↔ s.length = 1
  have ht : globTranslate ['?'] = [GlobTok.anyChar] := rfl
  rw [ht]
  cases s with
  | nil => simp [globMatchToks]
  | cons c rest =>
    cases rest with
    | nil => simp [globMatchToks]
    | cons d r2 => simp [globMatchToks]

theorem globTranslate_literal :
    ∀ p : List Char, (∀ c ∈ p, c ≠ '*' ∧ c ≠ '?' ∧ c ≠ '[') →
    globTranslate p = p.map GlobTok.litChar := by
  intro p
  induction p with
  | nil => intro _; rfl
  | cons c ps ih =>
    intro h
    have hc := h c (List.mem_cons_self c ps)
    show gtAux none (c :: ps) = (c :: ps).map GlobTok.litChar
    rw [gtAux.eq_def]
    simp only []
    rw [if_neg hc.1, if_neg hc.2.1, if_neg hc.2.2, List.map_cons]
    have ihx : gtAux none ps = List.map GlobTok.litChar ps :=
      ih (fun x hx => h x (List.mem_cons_of_mem c hx))
    rw [ihx]

theorem globMatchToks_literal :
    ∀ p s : List Char, globMatchToks false (p.map GlobTok.litChar) s = true ↔ p = s := by
  intro p
  induction p with
  | nil => intro s; cases s <;> simp [globMatchToks]
  | cons c ps ih =>
    intro s
    cases s with
    | nil => simp [globMatchToks]
    | cons d s2 =>
      simp only [List.map_cons, globMatchToks, litEq, Bool.and_eq_true,
        Bool.false_eq_true, if_false, List.cons.injEq, decide_eq_true_eq]
      rw [ih s2]

theorem glob_literal :
    ∀ p s : List Char, (∀ c ∈ p, c ≠ '*' ∧ c ≠ '?' ∧ c ≠ '[') →
    (globCs p s = true ↔ p = s) := by
  intro p s h
  show globMatchToks false (globTranslate p) s = true ↔ p = s
  rw [globTranslate_literal p h]
  exact globMatchToks_literal p s

/-- C9.  Pattern filter: matching is an anchored Windows-style glob,
case-insensitive by default and case-sensitive on request — on the
scenario tree `*.txt` finds `a.txt` and `b.TXT` but not `c.bin`, the
case-sensitive variant finds only `a.txt`, and `a.txt.bak` is rejected.
The `fnmatch` semantics are covered in full: a character class `[ab]`
matches the single name `a` and not the literal name `[ab]`, `[!ab]`
negates, `[a-z]` is a range, an unclosed `[` is literal; a lone star
matches every name, a question mark exactly one character, and a pattern
free of `*`, `?` and `[` matches exactly itself (whole-name anchoring). -/
theorem claim_C9_pattern_filter :
    (find_files_windows "*.txt" "root" exTree false = ["root/a.txt", "root/b.TXT"]) ∧
    (find_files_windows "*.txt" "root" exTree true = ["root/a.txt"]) ∧
    (matchesPattern "*.txt" false "a.txt.bak" = false) ∧
    (matchesPattern "*.txt" false "a.txt" = true) ∧
    (matchesPattern "*.txt" false "b.TXT" = true) ∧
    (matchesPattern "*.txt" false "c.bin" = false) ∧
    (globCs "[ab]".toList "a".toList = true) ∧
    (globCs "[ab]".toList "[ab]".toList = false) ∧
    (globCs "[!ab]".toList "c".toList = true ∧ globCs "[!ab]".toList "a".toList = false) ∧
    (globCs "[a-z]".toList "q".toList = true ∧ globCs "[a-z]".toList "A".toList = false ∧
      matchesPattern "[a-z]" false "A" = true) ∧
    (globCs "[ab".toList "[ab".toList = true) ∧
    (∀ s : List Char, globCs ['*'] s = true) ∧
    (∀ s : List Char, globCs ['?'] s = true ↔ s.length = 1) ∧
    (∀ p s : List Char, (∀ c ∈ p, c ≠ '*' ∧ c ≠ '?' ∧ c ≠ '[') →
      (globCs p s = true ↔ p = s)) :=
  ⟨by decide, by decide, by decide, by decide, by decide, by decide, by decide, by decide,
   by decide, by decide, by decide, glob_star_all, glob_question_one, glob_literal⟩

/-- Witness for C9: the wildcard-free pattern `ab` matches exactly the
name `ab`, through the anchored-literal part of the C9 pattern-filter
statement. -/
theorem claim_C9_witness : globCs ['a', 'b'] ['a', 'b'] = true :=
  (claim_C9_pattern_filter.2.2.2.2.2.2.2.2.2.2.2.2.2 ['a', 'b'] ['a', 'b']
    (by decide)).mpr rfl


/-- C6 counterexample: the result keeps the tie `root/a.txt` before
`root/B.txt` (traversal order), violating the claimed path-ascending
tie-break, and the tree holds a file of size 999 (inside the unreadable
subdirectory) that is absent from the list even though every listed size
is 10. -/
theorem claim_C6_counterexample :
    _get_largest_files "root" c6Tree 5 = [("root/a.txt", 10), ("root/B.txt", 10)] ∧
    ¬ List.Pairwise specTieOrder (_get_largest_files "root" c6Tree 5) ∧
    ("root/locked/big.bin", 999) ∈ allFiles "root" c6Tree ∧
    ("root/locked/big.bin", 999) ∉ _get_largest_files "root" c6Tree 5 ∧
    (∀ g ∈ _get_largest_files "root" c6Tree 5, g.2 < 999) := by decide

/-- C6 as amended: for every tree the largest-files list has at most 5
entries, is sorted by size descending with ties kept in traversal
(collection) order by the stable sort, and every collected (readable,
non-link) file outside the list is at most as large as every listed
one.  Files inside unreadable or linked subtrees are excluded from the
collection, as fixed by the design notes. -/
theorem claim_C6_top5_invariant (path : String) (t : FSTree) :
    (_get_largest_files path t 5).length ≤ 5 ∧
    List.Pairwise (fun a b => b.2 ≤ a.2) (_get_largest_files path t 5) ∧
    (∀ f ∈ collect_files path t, f ∉ _get_largest_files path t 5 →
      ∀ g ∈ _get_largest_files path t 5, f.2 ≤ g.2) := by
  have htot : ∀ a b : String × Nat, sizeGe a b = true ∨ sizeGe b a = true := by
    intro a b
    simp only [sizeGe, decide_eq_true_eq]
    omega
  have htrans : ∀ a b c : String × Nat,
      sizeGe a b = true → sizeGe b c = true → sizeGe a c = true := by
    intro a b c
    simp only [sizeGe, decide_eq_true_eq]
    omega
  have hpw := pairwise_stableSort sizeGe htot htrans (collect_files path t)
  refine ⟨?_, ?_, ?_⟩
  · simp [_get_largest_files, List.length_take]
  · apply List.Pairwise.imp ?_ (List.Pairwise.sublist (List.take_sublist 5 _) hpw)
    intro a b h
    simpa [sizeGe] using h
  · intro f hf hfo g hg
    have hfs : f ∈ stableSort sizeGe (collect_files path t) :=
      (mem_stableSort sizeGe (collect_files path t) f).mpr hf
    rw [← List.take_append_drop 5 (stableSort sizeGe (collect_files path t))] at hfs
    rcases List.mem_append.mp hfs with hin | hdrop
    · exact absurd hin hfo
    · rw [← List.take_append_drop 5 (stableSort sizeGe (collect_files path t))] at hpw
      have := (List.pairwise_append.mp hpw).2.2 g hg f hdrop
      simpa [sizeGe] using this

/-- Witness for C6 on a six-file tree: the list is capped at 5 entries
and the excluded smallest file is bounded by a listed one. -/
theorem claim_C6_witness :
    (_get_largest_files "root" c6Six 5).length ≤ 5 ∧ (1 : Nat) ≤ 6 := by
  have h := claim_C6_top5_invariant "root" c6Six
  exact ⟨h.1, h.2.2 ("root/f.txt", 1) (by decide) (by decide) ("root/a.txt", 6) (by decide)⟩

theorem goLarge_map_proj (minB : Nat) (recL : String → FSTree → List LargeFileInfo)
    (recC : String → FSTree → List (String × Nat))
    (h : ∀ p c, (recL p c).map (fun i => (i.path, i.size_bytes)) =
      (recC p c).filter (fun e => minB ≤ e.2)) :
    ∀ (pre : String) (l : List (String × FSTree)),
    (goLarge minB recL pre l).map (fun i => (i.path, i.size_bytes)) =
      (goCollect recC pre l).filter (fun e => minB ≤ e.2) := by
  intro pre l
  induction l with
  | nil => rfl
  | cons e rest ih =>
    obtain ⟨nm, c⟩ := e
    simp only [goLarge, goCollect]
    by_cases hd : isDirNode c = true
    · rw [if_pos hd, if_pos hd]
      by_cases hl : isLinkNode c = true
      · rw [if_pos hl, if_pos hl]
        exact ih
      · rw [if_neg hl, if_neg hl]
        simp only [List.map_append, List.filter_append, h, ih]
    · rw [if_neg hd, if_neg hd]
      by_cases hs : minB ≤ entrySize c
      · simp [List.filter_cons, hs, ih]
      · simp [List.filter_cons, hs, ih]

theorem largeF_map_proj (minB : Nat) :
    ∀ (fuel : Nat) (pre : String) (t : FSTree),
    (largeF minB fuel pre t).map (fun i => (i.path, i.size_bytes)) =
      (collectF fuel pre t).filter (fun e => minB ≤ e.2) := by
  intro fuel
  induction fuel with
  | zero => intro pre t; rfl
  | succ f ih =>
    intro pre t
    simp only [largeF, collectF]
    by_cases hguard : (!(list_directory t).1 || (list_directory t).2.isEmpty) = true
    · simp [hguard]
    · simp only [hguard, Bool.false_eq_true, if_false]
      exact goLarge_map_proj minB _ _ (fun p c => ih p c) pre (list_directory t).2

theorem goLarge_size_mb (minB : Nat) (recL : String → FSTree → List LargeFileInfo)
    (h : ∀ p c i, i ∈ recL p c → i.size_mb = size_mb_centi i.size_bytes) :
    ∀ (pre : String) (l : List (String × FSTree)) (i : LargeFileInfo),
    i ∈ goLarge minB recL pre l → i.size_mb = size_mb_centi i.size_bytes := by
  intro pre l
  induction l with
  | nil => intro i hi; cases hi
  | cons e rest ih =>
    obtain ⟨nm, c⟩ := e
    intro i hi
    simp only [goLarge] at hi
    by_cases hd : isDirNode c = true
    · rw [if_pos hd] at hi
      by_cases hl : isLinkNode c = true
      · rw [if_pos hl] at hi
        exact ih i hi
      · rw [if_neg hl] at hi
        rcases List.mem_append.mp hi with h1 | h1
        · exact h _ _ i h1
        · exact ih i h1
    · rw [if_neg hd] at hi
      by_cases hs : minB ≤ entrySize c
      · rw [if_pos hs] at hi
        rcases List.mem_cons.mp hi with h1 | h1
        · subst h1; rfl
        · exact ih i h1
      · rw [if_neg hs] at hi
        exact ih i hi

theorem largeF_size_mb (minB : Nat) :
    ∀ (fuel : Nat) (pre : String) (t : FSTree) (i : LargeFileInfo),
    i ∈ largeF minB fuel pre t → i.size_mb = size_mb_centi i.size_bytes := by
  intro fuel
  induction fuel with
  | zero => intro pre t i hi; cases hi
  | succ f ih =>
    intro pre t i hi
    simp only [largeF] at hi
    by_cases hguard : (!(list_directory t).1 || (list_directory t).2.isEmpty) = true
    · rw [if_pos hguard] at hi; cases hi
    · rw [if_neg (by simpa using hguard)] at hi
      exact goLarge_size_mb minB _ (fun p c j hj => ih p c j hj) pre _ i hi

/-- C8 as amended: for a whole-megabyte threshold the result is exactly
(a permutation of) the reachable files with `sizeBytes` at least
`mb * 1024 * 1024`; it is sorted descending by the rounded megabyte
figure `size_mb` (hundredths of a megabyte) — not by the exact byte
size — with ties kept in traversal order by the stable sort; and every
record carries `size_mb = round(sizeBytes / 2^20, 2)`. -/
theorem claim_C8_size_filter (mb : Nat) (path : String) (t : FSTree) :
    ((find_large_files_windows mb path t).map (fun i => (i.path, i.size_bytes))).Perm
      ((collect_files path t).filter (fun e => mb * 1048576 ≤ e.2)) ∧
    List.Pairwise (fun a b => b.size_mb ≤ a.size_mb) (find_large_files_windows mb path t) ∧
    (∀ i ∈ find_large_files_windows mb path t, i.size_mb = size_mb_centi i.size_bytes) := by
  refine ⟨?_, ?_, ?_⟩
  · have hperm := (stableSort_perm largeGe
      (largeF (mb * 1048576) (treeDepth t) path t)).map (fun i => (i.path, i.size_bytes))
    rw [largeF_map_proj] at hperm
    exact hperm
  · have htot : ∀ a b : LargeFileInfo, largeGe a b = true ∨ largeGe b a = true := by
      intro a b
      simp only [largeGe, decide_eq_true_eq]
      omega
    have htrans : ∀ a b c : LargeFileInfo,
        largeGe a b = true → largeGe b c = true → largeGe a c = true := by
      intro a b c
      simp only [largeGe, decide_eq_true_eq]
      omega
    apply List.Pairwise.imp ?_ (pairwise_stableSort largeGe htot htrans _)
    intro a b h
    simpa [largeGe] using h
  · intro i hi
    have : i ∈ largeF (mb * 1048576) (treeDepth t) path t :=
      (mem_stableSort largeGe _ i).mp hi
    exact largeF_size_mb _ _ path t i this

/-- C8 counterexample: both files round to 1.00 MB, so the stable sort
keeps traversal order and the returned byte sizes `[1048576, 1049000]`
are not sorted descending by size, against the claimed ordering. -/
theorem claim_C8_counterexample :
    (find_large_files_windows 1 "root" c8Tree).map (fun i => i.size_bytes) =
      [1048576, 1049000] ∧
    ¬ List.Pairwise (fun a b : Nat => b ≤ a)
      ((find_large_files_windows 1 "root" c8Tree).map (fun i => i.size_bytes)) := by decide

/-- Witness for C8 at the counterexample tree: the permutation statement
holds and the first record carries the rounded megabyte field. -/
theorem claim_C8_witness :
    ((find_large_files_windows 1 "root" c8Tree).map (fun i => (i.path, i.size_bytes))).Perm
      ((collect_files "root" c8Tree).filter (fun e => 1 * 1048576 ≤ e.2)) ∧
    ({ path := "root/a.bin", size_mb := 100, size_bytes := 1048576,
       ftype := ".bin", name := "a.bin" : LargeFileInfo }).size_mb =
      size_mb_centi 1048576 :=
  ⟨(claim_C8_size_filter 1 "root" c8Tree).1,
   (claim_C8_size_filter 1 "root" c8Tree).2.2
     { path := "root/a.bin", size_mb := 100, size_bytes := 1048576,
       ftype := ".bin", name := "a.bin" } (by decide)⟩

theorem isCycPath_replicate (k : Nat) :
    isCycPath ("root" :: List.replicate k "loop") = true := by
  simp only [isCycPath]
  induction k with
  | zero => rfl
  | succ n ih => simp [List.replicate_succ, ih]

theorem cyc_append_loop (k : Nat) :
    ("root" :: List.replicate k "loop") ++ ["loop"] =
      "root" :: List.replicate (k + 1) "loop" := by
  simp only [List.cons_append]
  congr 1
  induction k with
  | zero => rfl
  | succ n ih => simpa [List.replicate_succ] using ih

theorem cyc_listing (k : Nat) :
    list_directoryP cycFS ("root" :: List.replicate k "loop") =
      (true, [("loop", true, 0), ("a.txt", false, 1)]) := by
  have hl : cycFS.listdir ("root" :: List.replicate k "loop") = ["a.txt", "loop"] := by
    simp [cycFS, isCycPath_replicate k]
  have hd2 : cycFS.isDir (("root" :: List.replicate k "loop") ++ ["loop"]) = true := by
    have h := isCycPath_replicate (k + 1)
    rw [← cyc_append_loop k] at h
    simpa [cycFS] using h
  have hd1 : cycFS.isDir (("root" :: List.replicate k "loop") ++ ["a.txt"]) = false := by
    simp [cycFS, isCycPath, List.cons_append]
  have hs1 : cycFS.size (("root" :: List.replicate k "loop") ++ ["a.txt"]) = 1 := by
    simp only [cycFS]
    rw [List.getLast?_concat]
    rfl
  simp only [list_directoryP, hl, List.map_cons, List.map_nil, hd1, hd2, hs1]
  simp only [Bool.false_eq_true, if_false, if_true]
  decide

/-- On the cyclic file system no recursion depth lets `count_files`
finish from the root (or from any point of the cycle): the listing puts
the `loop` entry first, `count_files` recurses into it because it never
checks for links, and the subtraversal is the whole traversal again. -/
theorem countFilesP_cyc_none :
    ∀ (fuel k : Nat), countFilesP cycFS fuel ("root" :: List.replicate k "loop") = none := by
  intro fuel
  induction fuel with
  | zero => intro k; rfl
  | succ f ih =>
    intro k
    simp [countFilesP, cyc_listing k, goCountP, cyc_append_loop k, ih (k + 1)]

/-- On the same cyclic file system `count_bytes` finishes at once with
the correct single byte: the link is skipped before recursing. -/
theorem countBytesP_cyc (fuel k : Nat) :
    countBytesP cycFS (fuel + 1) ("root" :: List.replicate k "loop") = some (true, 1) := by
  have hli : cycFS.isLink ("root" :: (List.replicate k "loop" ++ ["loop"])) = true := by
    rw [← List.cons_append]
    simp only [cycFS]
    rw [List.getLast?_concat]
    rfl
  simp [countBytesP, cyc_listing k, goBytesP, hli]

/-- Lockstep equality at every fuel: the byte total of a directory whose
head entry is a symbolic link does not depend on the link target. -/
theorem bytesF_link_head_eq (r : Bool) (nm : String) (cs : List (String × FSTree))
    (rt rt2 : Bool) (tgt tgt2 : List (String × FSTree)) :
    ∀ fuel, bytesF fuel (FSTree.dir r ((nm, FSTree.link (FSTree.dir rt tgt)) :: cs)) =
      bytesF fuel (FSTree.dir r ((nm, FSTree.link (FSTree.dir rt2 tgt2)) :: cs)) := by
  intro fuel
  cases fuel with
  | zero => rfl
  | succ f =>
    rw [bytesF_dir_succ, bytesF_dir_succ]
    have hany : (((nm, FSTree.link (FSTree.dir rt tgt)) :: cs).any
        (fun e => !statFails e.2)) = (((nm, FSTree.link (FSTree.dir rt2 tgt2)) :: cs).any
        (fun e => !statFails e.2)) := by
      simp [List.any_cons, statFails]
    rw [hany]
    by_cases hcond : (r && (((nm, FSTree.link (FSTree.dir rt2 tgt2)) :: cs).any
        (fun e => !statFails e.2))) = true
    · rw [if_pos hcond, if_pos hcond]
      have hhead : bytesContrib f (nm, FSTree.link (FSTree.dir rt tgt)) =
          bytesContrib f (nm, FSTree.link (FSTree.dir rt2 tgt2)) := by
        simp [bytesContrib, statFails, isDirNode, isLinkNode]
      simp [List.map_cons, hhead]
    · rw [if_neg hcond, if_neg hcond]

/-- In the tree embedding, `count_bytes` is independent of the target of
a symbolic-link entry: the link is skipped, so its subtree contributes
nothing (no double counting). -/
theorem count_bytes_link_independent (r : Bool) (nm : String)
    (cs : List (String × FSTree)) (rt rt2 : Bool)
    (tgt tgt2 : List (String × FSTree)) :
    count_bytes (FSTree.dir r ((nm, FSTree.link (FSTree.dir rt tgt)) :: cs)) =
      count_bytes (FSTree.dir r ((nm, FSTree.link (FSTree.dir rt2 tgt2)) :: cs)) := by
  have h1 := bytesF_eq_count_bytes
    (FSTree.dir r ((nm, FSTree.link (FSTree.dir rt tgt)) :: cs))
    (treeDepth (FSTree.dir r ((nm, FSTree.link (FSTree.dir rt tgt)) :: cs)) +
      treeDepth (FSTree.dir r ((nm, FSTree.link (FSTree.dir rt2 tgt2)) :: cs)))
    (Nat.le_add_right _ _)
  have h2 := bytesF_eq_count_bytes
    (FSTree.dir r ((nm, FSTree.link (FSTree.dir rt2 tgt2)) :: cs))
    (treeDepth (FSTree.dir r ((nm, FSTree.link (FSTree.dir rt tgt)) :: cs)) +
      treeDepth (FSTree.dir r ((nm, FSTree.link (FSTree.dir rt2 tgt2)) :: cs)))
    (Nat.le_add_left _ _)
  rw [← h1, ← h2]
  exact bytesF_link_head_eq r nm cs rt rt2 tgt tgt2 _

/-- C2.  Cycle safety holds for `count_bytes` (and the link-skipping
traversals), but fails for `count_files`: on a directory whose link
entry points back to an ancestor, `count_files` never completes within
any finite recursion depth — in CPython the descent is cut off only by
the recursion limit, whose `RecursionError` is swallowed as a partial
failure after the cycle contents were counted once per level — while
`count_bytes` skips the link, terminates at once and counts the linked
content exactly once; in the tree embedding its result does not depend
on the link target at all. -/
theorem claim_C2_cycle_safety :
    (∀ fuel : Nat, countFilesP cycFS fuel ["root"] = none) ∧
    (∀ fuel : Nat, countBytesP cycFS (fuel + 1) ["root"] = some (true, 1)) ∧
    (∀ (r : Bool) (nm : String) (cs : List (String × FSTree)) (rt rt2 : Bool)
      (tgt tgt2 : List (String × FSTree)),
      count_bytes (FSTree.dir r ((nm, FSTree.link (FSTree.dir rt tgt)) :: cs)) =
        count_bytes (FSTree.dir r ((nm, FSTree.link (FSTree.dir rt2 tgt2)) :: cs))) :=
  ⟨fun fuel => countFilesP_cyc_none fuel 0,
   fun fuel => countBytesP_cyc fuel 0,
   count_bytes_link_independent⟩
